import Mathlib

/-!
Shallow embedding of the Avalon-MM master driver
(src/cocotbext/avalon/avalon_master.py) and proofs about its
beat splitting, queue/idle bookkeeping, engine loop and error handling.
-/

set_option linter.all false

namespace AvalonMM

/-- Little-endian encoding of a natural number into a fixed number of bytes,
mirroring the Python call to_bytes(k, "little"). -/
def toLEBytes : Nat → Nat → List Nat
  | _, 0 => []
  | n, k + 1 => (n % 256) :: toLEBytes (n / 256) k

/-- Little-endian interpretation of a byte list, mirroring
int.from_bytes(data, byteorder="little"). -/
def fromLEBytes : List Nat → Nat
  | [] => 0
  | b :: bs => b + 256 * fromLEBytes bs

theorem toLEBytes_length (n k : Nat) : (toLEBytes n k).length = k := by
  induction k generalizing n with
  | zero => rfl
  | succ k ih => simp [toLEBytes, ih]

theorem mod_mul_decomp (n a b : Nat) : n % (a * b) = n % a + a * (n / a % b) := by
  rcases Nat.eq_zero_or_pos a with ha | ha
  · subst ha; simp
  rcases Nat.eq_zero_or_pos b with hb | hb
  · subst hb; simp [Nat.mod_add_div]
  have h1 := Nat.div_add_mod n a
  have h2 := Nat.div_add_mod n (a * b)
  have h3 := Nat.div_add_mod (n / a) b
  have h4 : n / a / b = n / (a * b) := Nat.div_div_eq_div_mul n a b
  have h5 : a * (b * (n / a / b) + n / a % b) = a * (n / a) := congrArg (a * ·) h3
  rw [Nat.mul_add, h4, ← Nat.mul_assoc] at h5
  have hlt : n % (a * b) < a * b := Nat.mod_lt _ (Nat.mul_pos ha hb)
  have hlt2 : n % a < a := Nat.mod_lt _ ha
  have hlt3 : n / a % b < b := Nat.mod_lt _ hb
  omega

theorem fromLEBytes_toLEBytes (n k : Nat) :
    fromLEBytes (toLEBytes n k) = n % 256 ^ k := by
  induction k generalizing n with
  | zero => simp [toLEBytes, fromLEBytes, Nat.mod_one]
  | succ k ih =>
      rw [toLEBytes, fromLEBytes, ih, Nat.pow_succ, Nat.mul_comm (256 ^ k) 256,
        mod_mul_decomp n 256 (256 ^ k)]

theorem fromLEBytes_append (a b : List Nat) :
    fromLEBytes (a ++ b) = fromLEBytes a + 256 ^ a.length * fromLEBytes b := by
  induction a with
  | nil => simp [fromLEBytes]
  | cons x xs ih =>
      simp only [List.cons_append, fromLEBytes, List.length_cons, Nat.pow_succ,
        List.append_eq]
      rw [ih]
      ring

/-- Static configuration of the master, fixed at construction time: signal
widths derived from the bound bus, the timeout budget in cycles (negative
disables it) and the exception_enabled flag. -/
structure Config where
  address_width : Nat
  wwidth : Nat
  rwidth : Nat
  be_width : Nat
  timeout_cycles : Int
  exception_enabled : Bool
deriving DecidableEq, Repr

/-- Bytes per write-data word, int(wwidth/8). -/
def Config.wbytes (c : Config) : Nat := c.wwidth / 8

/-- Bytes per read-data word, int(rwidth/8). -/
def Config.rbytes (c : Config) : Nat := c.rwidth / 8

/-- Write-data mask 2**wwidth - 1. -/
def Config.wdata_mask (c : Config) : Nat := 2 ^ c.wwidth - 1

/-- Read-data mask 2**rwidth - 1. -/
def Config.rdata_mask (c : Config) : Nat := 2 ^ c.rwidth - 1

/-- Payload argument of write/read calls: a Python int (used with unsigned
values) or an explicit byte string. -/
inductive Payload where
  | int (n : Nat)
  | bytes (bs : List Nat)
deriving DecidableEq, Repr

/-- One entry of queue_tx: the tuple
(write, addrb, datab, strb, error_expected, tx_id). -/
structure Beat where
  write : Bool
  addr : Int
  data : List Nat
  strb : Int
  error_expected : Bool
  id : Nat
deriving DecidableEq, Repr

/-- Bus signals driven by the master. -/
structure Signals where
  read : Nat
  write : Nat
  address : Int
  writedata : Nat
  byteenable : Nat
deriving DecidableEq, Repr

/-- Mutable driver state: the two queues, the id counter, the two events
(idle and sync), the sticky exception flag, whether the _run coroutine has
died from an uncaught exception, and the driven signals. -/
structure MasterState where
  queue_tx : List Beat
  queue_rx : List (List Nat × Nat)
  tx_id : Nat
  idleSet : Bool
  syncSet : Bool
  exception_occurred : Bool
  engineDead : Bool
  sig : Signals
deriving DecidableEq, Repr

/-- Driver state right after construction: empty queues, tx_id 0, the idle
event set, all driven signals zero. -/
def initState : MasterState :=
  { queue_tx := [], queue_rx := [], tx_id := 0, idleSet := true,
    syncSet := false, exception_occurred := false, engineDead := false,
    sig := { read := 0, write := 0, address := 0, writedata := 0,
             byteenable := 0 } }

/-- Number of bus-width transactions a write payload is split into
(write_nowait, lines 134-142): ceil(bit_length/wwidth) for a nonzero int
(1 for a zero int), ceil(len/wbytes) for bytes. -/
def numWriteBeats (c : Config) : Payload → Nat
  | .int n => if 0 < n.size then (n.size + c.wwidth - 1) / c.wwidth else 1
  | .bytes bs => (bs.length + c.wbytes - 1) / c.wbytes

/-- The beats write_nowait appends (lines 144-153): beat i has byte address
addr + i*wbytes and carries the i-th wwidth-wide slice of the payload as
wbytes little-endian bytes; ids count up from the current tx_id. -/
def writeBeats (c : Config) (addr : Int) (data : Payload) (strb : Int)
    (ee : Bool) (txid : Nat) : List Beat :=
  (List.range (numWriteBeats c data)).map fun (i : Nat) =>
    { write := true
      addr := addr + Int.ofNat (i * c.wbytes)
      data := match data with
        | .int n => toLEBytes (n >>> (c.wwidth * i) &&& c.wdata_mask) c.wbytes
        | .bytes bs => (bs.drop (i * c.wbytes)).take c.wbytes
      strb := strb
      error_expected := ee
      id := txid + i + 1 }

/-- Queue a write without waiting for completion (write_nowait,
lines 126-156): append the beats, advance tx_id, set sync, clear idle. -/
def write_nowait (c : Config) (s : MasterState) (addr : Int) (data : Payload)
    (strb : Int) (ee : Bool) : MasterState :=
  { s with
    queue_tx := s.queue_tx ++ writeBeats c addr data strb ee s.tx_id
    tx_id := s.tx_id + numWriteBeats c data
    syncSet := true
    idleSet := false }

/-- Number of transactions a read expected-payload is split into
(read_nowait, lines 196-204): like writes but with the read width; always 1
for an explicit bytes payload. -/
def numReadBeats (c : Config) : Payload → Nat
  | .int n => if 0 < n.size then (n.size + c.rwidth - 1) / c.rwidth else 1
  | .bytes _ => 1

/-- The beats read_nowait appends (lines 206-215): beat i has byte address
addr + i*rbytes; an int expected value is sliced rwidth-wide, an explicit
bytes payload is attached whole. -/
def readBeats (c : Config) (addr : Int) (data : Payload) (ee : Bool)
    (txid : Nat) : List Beat :=
  (List.range (numReadBeats c data)).map fun (i : Nat) =>
    { write := false
      addr := addr + Int.ofNat (i * c.rbytes)
      data := match data with
        | .int n => toLEBytes (n >>> (c.rwidth * i) &&& c.rdata_mask) c.rbytes
        | .bytes bs => bs
      strb := -1
      error_expected := ee
      id := txid + i + 1 }

/-- Queue a read without waiting (read_nowait, lines 189-219); returns the
updated state together with the returned id, which is the final value of
self.tx_id. -/
def read_nowait (c : Config) (s : MasterState) (addr : Int) (data : Payload)
    (ee : Bool) : MasterState × Nat :=
  ({ s with
      queue_tx := s.queue_tx ++ readBeats c addr data ee s.tx_id
      tx_id := s.tx_id + numReadBeats c data
      syncSet := true
      idleSet := false },
   s.tx_id + numReadBeats c data)

/-- Clears the RX and TX queues (clear, lines 246-249); nothing else of the
state is touched. -/
def clear (s : MasterState) : MasterState :=
  { s with queue_tx := [], queue_rx := [] }

/-- One polling loop of _run (lines 300-307, 316-323, 360-367, 371-378):
while the watched condition holds, advance a clock edge, bump cycle_count,
and raise once timeout_cycles is non-negative and cycle_count reaches it.
The condition is modelled by the number of consecutive samples for which it
stays asserted; the result is the number of cycles waited, or the cycle
count at which the timeout fired. -/
def waitLoopAux (timeout : Int) : Nat → Nat → Except Nat Nat
  | 0, count => .ok count
  | r + 1, count =>
      if 0 ≤ timeout ∧ timeout ≤ (Int.ofNat (count + 1)) then
        .error (count + 1)
      else waitLoopAux timeout r (count + 1)

/-- Polling loop entered with cycle_count = 0. -/
def waitLoop (timeout : Int) (asserted : Nat) : Except Nat Nat :=
  waitLoopAux timeout asserted 0

/-- Observable outcome of one response-code check: whether the sticky
exception_occurred flag was set, whether a fatal exception was raised, and
whether a warning was logged instead. -/
structure RespCheck where
  flagSet : Bool
  fatal : Bool
  warned : Bool
deriving DecidableEq, Repr

/-- Response check of the write path (_run lines 325-344). -/
def checkWriteResponse (exception_enabled error_expected : Bool)
    (response : Nat) : RespCheck :=
  if error_expected then
    if response = 0 then
      { flagSet := true, fatal := exception_enabled,
        warned := !exception_enabled }
    else { flagSet := false, fatal := false, warned := false }
  else
    if response ≠ 0 then
      { flagSet := true, fatal := exception_enabled,
        warned := !exception_enabled }
    else { flagSet := false, fatal := false, warned := false }

/-- Response check of the read path (_run lines 384-403). -/
def checkReadResponse (exception_enabled error_expected : Bool)
    (response : Nat) : RespCheck :=
  if error_expected then
    if response = 0 then
      { flagSet := true, fatal := exception_enabled,
        warned := !exception_enabled }
    else { flagSet := false, fatal := false, warned := false }
  else
    if response ≠ 0 then
      { flagSet := true, fatal := exception_enabled,
        warned := !exception_enabled }
    else { flagSet := false, fatal := false, warned := false }

/-- Uncaught exceptions the engine loop can raise while processing a beat. -/
inductive RunError where
  | addrOutOfRange (byteAddr wordAddr : Int)
  | acceptTimeout (isWrite : Bool) (addr : Int) (cycles : Nat)
  | responseTimeout (isWrite : Bool) (addr : Int) (cycles : Nat)
  | respViolation (isWrite : Bool) (response : Nat)
  | verifyMismatch (expected actual : Nat)
deriving DecidableEq, Repr

/-- Bus inputs as sampled while one beat is processed: how many cycles
waitrequest stays asserted, how many cycles until the response-valid strobe,
the sampled response code, and the sampled readdata value. -/
structure BeatEnv where
  waitCycles : Nat
  respCycles : Nat
  response : Nat
  readdata : Nat
deriving DecidableEq, Repr

/-- Outcome of processing one dequeued beat in _run (lines 272-417): the
uncaught exception if one was raised, whether exception_occurred was set,
whether a warning was logged, the completed-read entries appended to
queue_rx, whether any bus signal was driven, the word address driven on the
bus (if any), and the final signal values. -/
structure ProcResult where
  err : Option RunError
  flagSet : Bool
  warned : Bool
  rx : List (List Nat × Nat)
  drove : Bool
  drivenAddr : Option Int
  sigFinal : Signals
deriving DecidableEq, Repr

/-- Processing of one dequeued beat (_run lines 272-417). The byte address
is converted to a word address with floor division by wbytes; an
out-of-range word address raises before any signal is driven. The write
path drives write/address/writedata/byteenable, waits for acceptance,
clears the signals, waits for writeresponsevalid and checks the response.
The read path drives read/address, waits for acceptance and readdatavalid,
clears the signals, checks the response, verifies a non-empty expected
payload against the captured readdata and appends the captured value as
rbytes little-endian bytes, tagged with the beat id, to queue_rx. -/
def processBeat (c : Config) (env : BeatEnv) (sig0 : Signals) (b : Beat) :
    ProcResult :=
  let word_addr : Int := Int.fdiv b.addr (Int.ofNat c.wbytes)
  if word_addr < 0 ∨ (2 : Int) ^ c.address_width ≤ word_addr then
    { err := some (.addrOutOfRange b.addr word_addr), flagSet := false,
      warned := false, rx := [], drove := false, drivenAddr := none,
      sigFinal := sig0 }
  else if b.write then
    let data_int := fromLEBytes b.data
    let be : Nat :=
      if b.strb = -1 then 2 ^ c.be_width - 1
      else (Int.land b.strb ((2 : Int) ^ c.be_width - 1)).toNat
    let sigDriven : Signals :=
      { read := sig0.read, write := 1, address := word_addr,
        writedata := data_int &&& c.wdata_mask, byteenable := be }
    match waitLoop c.timeout_cycles env.waitCycles with
    | .error cyc =>
        { err := some (.acceptTimeout true b.addr cyc), flagSet := false,
          warned := false, rx := [], drove := true,
          drivenAddr := some word_addr, sigFinal := sigDriven }
    | .ok _ =>
        let sigCleared : Signals :=
          { read := sig0.read, write := 0, address := 0, writedata := 0,
            byteenable := 0 }
        match waitLoop c.timeout_cycles env.respCycles with
        | .error cyc =>
            { err := some (.responseTimeout true b.addr cyc),
              flagSet := false, warned := false, rx := [], drove := true,
              drivenAddr := some word_addr, sigFinal := sigCleared }
        | .ok _ =>
            let chk := checkWriteResponse c.exception_enabled
              b.error_expected env.response
            if chk.fatal then
              { err := some (.respViolation true env.response),
                flagSet := chk.flagSet, warned := false, rx := [],
                drove := true, drivenAddr := some word_addr,
                sigFinal := sigCleared }
            else
              { err := none, flagSet := chk.flagSet, warned := chk.warned,
                rx := [], drove := true, drivenAddr := some word_addr,
                sigFinal := sigCleared }
  else
    let sigDriven : Signals :=
      { read := 1, write := sig0.write, address := word_addr,
        writedata := sig0.writedata, byteenable := sig0.byteenable }
    match waitLoop c.timeout_cycles env.waitCycles with
    | .error cyc =>
        { err := some (.acceptTimeout false b.addr cyc), flagSet := false,
          warned := false, rx := [], drove := true,
          drivenAddr := some word_addr, sigFinal := sigDriven }
    | .ok _ =>
        match waitLoop c.timeout_cycles env.respCycles with
        | .error cyc =>
            { err := some (.responseTimeout false b.addr cyc),
              flagSet := false, warned := false, rx := [], drove := true,
              drivenAddr := some word_addr, sigFinal := sigDriven }
        | .ok _ =>
            let sigCleared : Signals :=
              { read := 0, write := sig0.write, address := 0,
                writedata := sig0.writedata, byteenable := sig0.byteenable }
            let chk := checkReadResponse c.exception_enabled
              b.error_expected env.response
            if chk.fatal then
              { err := some (.respViolation false env.response),
                flagSet := chk.flagSet, warned := false, rx := [],
                drove := true, drivenAddr := some word_addr,
                sigFinal := sigCleared }
            else
              let ret := env.readdata
              if b.data ≠ [] ∧ fromLEBytes b.data ≠ ret then
                { err := some (.verifyMismatch (fromLEBytes b.data) ret),
                  flagSet := chk.flagSet, warned := chk.warned, rx := [],
                  drove := true, drivenAddr := some word_addr,
                  sigFinal := sigCleared }
              else
                { err := none, flagSet := chk.flagSet, warned := chk.warned,
                  rx := [(toLEBytes ret c.rbytes, b.id)], drove := true,
                  drivenAddr := some word_addr, sigFinal := sigCleared }

/-- One iteration of the engine loop _run (lines 255-417): with an empty
transaction queue it sets the idle event and clears sync, then suspends;
otherwise it pops the head beat and processes it, an uncaught exception
killing the coroutine (later steps of a dead engine change nothing). -/
def engineStep (c : Config) (env : BeatEnv) (s : MasterState) : MasterState :=
  if s.engineDead then s
  else
    match s.queue_tx with
    | [] => { s with idleSet := true, syncSet := false }
    | b :: rest =>
        let r := processBeat c env s.sig b
        match r.err with
        | some _ =>
            { s with
              queue_tx := rest
              exception_occurred := s.exception_occurred || r.flagSet
              queue_rx := s.queue_rx ++ r.rx
              engineDead := true
              sig := r.sigFinal }
        | none =>
            { s with
              queue_tx := rest
              exception_occurred := s.exception_occurred || r.flagSet
              queue_rx := s.queue_rx ++ r.rx
              syncSet := true
              sig := r.sigFinal }

/-- Iterated engine steps, one BeatEnv per iteration. -/
def runEngine (c : Config) (s : MasterState) : List BeatEnv → MasterState
  | [] => s
  | e :: es => runEngine c (engineStep c e s) es

/-- Atomic steps of the cooperative system: the non-blocking caller
operations and one engine iteration. -/
inductive SysOp where
  | wnw (addr : Int) (data : Payload) (strb : Int) (ee : Bool)
  | rnw (addr : Int) (data : Payload) (ee : Bool)
  | clr
  | engine (env : BeatEnv)
deriving DecidableEq, Repr

/-- Effect of one system step on the driver state. -/
def sysApply (c : Config) (s : MasterState) : SysOp → MasterState
  | .wnw addr data strb ee => write_nowait c s addr data strb ee
  | .rnw addr data ee => (read_nowait c s addr data ee).1
  | .clr => clear s
  | .engine env => engineStep c env s

/-- Driver state after a sequence of system steps. -/
def runTrace (c : Config) (s : MasterState) : List SysOp → MasterState
  | [] => s
  | op :: ops => runTrace c (sysApply c s op) ops

/-- Inner drain loop of the blocking read (lines 180-184): pop entries one
at a time until the id matches; returns the matched data (if any) and what
is left of the queue at that moment. -/
def readFindLoop (rxid : Nat) :
    List (List Nat × Nat) → Option (List Nat) × List (List Nat × Nat)
  | [] => (none, [])
  | (d, tid) :: rest =>
      if rxid = tid then (some d, rest) else readFindLoop rxid rest

/-- Outer polling loop of the blocking read (lines 179-185): drain the
current queue; when no match was found the queue has been fully consumed,
and after the next clock edge the loop sees whatever the engine appended
meanwhile (one list of arrivals per edge). Returns the matched data and the
queue remainder at the moment of the match, or none when the call blocks
forever. -/
def readPoll (rxid : Nat) :
    List (List Nat × Nat) → List (List (List Nat × Nat)) →
    Option (List Nat × List (List Nat × Nat))
  | q, [] =>
      match readFindLoop rxid q with
      | (some d, rest) => some (d, rest)
      | (none, _) => none
  | q, a :: as =>
      match readFindLoop rxid q with
      | (some d, rest) => some (d, rest)
      | (none, _) => readPoll rxid a as

/-- The blocking read after its enqueue (lines 177-187): poll for the id
returned by read_nowait; once the matching entry is found, await the idle
event — which completes exactly when the event is observed set at some
later suspension point, listed in idleLater — and only then return the
matched data. -/
def readCall (rxid : Nat) (q0 : List (List Nat × Nat))
    (arrivals : List (List (List Nat × Nat))) (idleLater : List Bool) :
    Option (List Nat) :=
  match readPoll rxid q0 arrivals with
  | none => none
  | some (d, _) => if idleLater.any (fun x => x) then some d else none

theorem fromLEBytes_flatten_chunks (W wb : Nat) (hw : W = 8 * wb) :
    ∀ (n : Nat) (Q : Nat),
      fromLEBytes (((List.range n).map
        (fun i => toLEBytes (Q / 2 ^ (W * i) % 2 ^ W) wb)).flatten)
      = Q % 2 ^ (W * n) := by
  have h256 : (256 : Nat) ^ wb = 2 ^ W := by
    rw [hw, Nat.pow_mul]
  intro n
  induction n with
  | zero => intro Q; simp [fromLEBytes, Nat.mod_one]
  | succ n ih =>
      intro Q
      rw [List.range_succ_eq_map, List.map_cons, List.map_map,
        List.flatten_cons, fromLEBytes_append, toLEBytes_length,
        fromLEBytes_toLEBytes, h256]
      have hfun : ((fun i => toLEBytes (Q / 2 ^ (W * i) % 2 ^ W) wb) ∘ Nat.succ)
          = fun i => toLEBytes ((Q / 2 ^ W) / 2 ^ (W * i) % 2 ^ W) wb := by
        funext i
        simp only [Function.comp]
        rw [Nat.div_div_eq_div_mul, ← Nat.pow_add]
        have harg : W + W * i = W * Nat.succ i := by
          rw [Nat.mul_succ]; ring
        rw [harg]
      rw [hfun, ih (Q / 2 ^ W)]
      have e2 : (2 : Nat) ^ (W * (n + 1)) = 2 ^ W * 2 ^ (W * n) := by
        rw [← Nat.pow_add]
        ring_nf
      rw [e2, mod_mul_decomp]
      have e3 : Q / 2 ^ (W * 0) = Q := by simp
      rw [e3, Nat.mod_mod_of_dvd _ dvd_rfl]

theorem writeBeats_data_eq (c : Config) (addr : Int) (P : Nat) (strb : Int)
    (ee : Bool) (txid : Nat) :
    (writeBeats c addr (.int P) strb ee txid).map Beat.data
      = (List.range (numWriteBeats c (.int P))).map
          (fun i => toLEBytes (P / 2 ^ (c.wwidth * i) % 2 ^ c.wwidth)
            c.wbytes) := by
  simp only [writeBeats, List.map_map]
  apply List.map_congr_left
  intro i _
  simp only [Function.comp]
  rw [Nat.shiftRight_eq_div_pow, Config.wdata_mask,
    Nat.and_pow_two_sub_one_eq_mod]

theorem size_le_width_mul_numWriteBeats (c : Config) (P : Nat)
    (hW : 0 < c.wwidth) :
    Nat.size P ≤ c.wwidth * numWriteBeats c (.int P) := by
  by_cases h : 0 < P.size
  · simp only [numWriteBeats, if_pos h]
    have hd := Nat.div_add_mod (P.size + c.wwidth - 1) c.wwidth
    have hm := Nat.mod_lt (P.size + c.wwidth - 1) hW
    omega
  · simp only [numWriteBeats, if_neg h]
    omega

/-- Claim C1: write_nowait (and hence write) with an integer payload P of
bit length L enqueues exactly max(1, ceil(L/wwidth)) beats; beat i carries
byte address addr + i*wbytes and the bits of P in [i*wwidth, (i+1)*wwidth)
encoded as wbytes little-endian bytes, and concatenating the beat payloads
in order and reading the result little-endian reconstructs P exactly. -/
theorem C1_write_split_reconstruct (c : Config) (s : MasterState) (addr : Int)
    (P : Nat) (strb : Int) (ee : Bool)
    (hw : c.wwidth = 8 * c.wbytes) (hpos : 0 < c.wbytes) :
    (writeBeats c addr (.int P) strb ee s.tx_id).length
        = max 1 ((Nat.size P + c.wwidth - 1) / c.wwidth)
    ∧ (write_nowait c s addr (.int P) strb ee).queue_tx
        = s.queue_tx ++ writeBeats c addr (.int P) strb ee s.tx_id
    ∧ (writeBeats c addr (.int P) strb ee s.tx_id).map Beat.addr
        = (List.range (numWriteBeats c (.int P))).map
            (fun i => addr + Int.ofNat (i * c.wbytes))
    ∧ (writeBeats c addr (.int P) strb ee s.tx_id).map Beat.data
        = (List.range (numWriteBeats c (.int P))).map
            (fun i => toLEBytes (P / 2 ^ (c.wwidth * i) % 2 ^ c.wwidth)
              c.wbytes)
    ∧ fromLEBytes (((writeBeats c addr (.int P) strb ee s.tx_id).map
        Beat.data).flatten) = P := by
  have hW : 0 < c.wwidth := by omega
  refine ⟨?_, rfl, ?_, writeBeats_data_eq c addr P strb ee s.tx_id, ?_⟩
  · simp only [writeBeats, List.length_map, List.length_range]
    by_cases h : 0 < P.size
    · simp only [numWriteBeats, if_pos h]
      have h1 : 1 ≤ (P.size + c.wwidth - 1) / c.wwidth :=
        (Nat.one_le_div_iff hW).mpr (by omega)
      omega
    · simp only [numWriteBeats, if_neg h]
      have h0 : (Nat.size P + c.wwidth - 1) / c.wwidth = 0 :=
        Nat.div_eq_of_lt (by omega)
      omega
  · simp only [writeBeats, List.map_map]
    apply List.map_congr_left
    intro i _
    rfl
  · rw [writeBeats_data_eq,
      fromLEBytes_flatten_chunks c.wwidth c.wbytes hw
        (numWriteBeats c (.int P)) P]
    exact Nat.mod_eq_of_lt (lt_of_lt_of_le (Nat.lt_size_self P)
      (Nat.pow_le_pow_right (by norm_num)
        (size_le_width_mul_numWriteBeats c P hW)))

/-- Example configuration: 32-bit data buses, 16-bit address, 4 byte
enables, 1000-cycle timeout, exceptions enabled. -/
def cfgW : Config :=
  { address_width := 16, wwidth := 32, rwidth := 32, be_width := 4,
    timeout_cycles := 1000, exception_enabled := true }

theorem C1_write_split_reconstruct_witness :
    (writeBeats cfgW 16 (.int 956397711122) (-1) false initState.tx_id).length
        = max 1 ((Nat.size 956397711122 + cfgW.wwidth - 1) / cfgW.wwidth)
    ∧ fromLEBytes (((writeBeats cfgW 16 (.int 956397711122) (-1) false
        initState.tx_id).map Beat.data).flatten) = 956397711122 :=
  ⟨(C1_write_split_reconstruct cfgW initState 16 956397711122 (-1) false
      (by decide) (by decide)).1,
   (C1_write_split_reconstruct cfgW initState 16 956397711122 (-1) false
      (by decide) (by decide)).2.2.2.2⟩

/-- Claim C3: for every completed beat, with status the sampled response
code, the contract is violated exactly when error_expected differs from
(status ≠ 0); on violation the sticky exception_occurred flag is set and a
fatal exception is raised when exception-raising is enabled, otherwise a
warning is logged and processing continues; on a satisfied contract nothing
is flagged, raised or warned. The write-path and read-path checks behave
identically, and engineStep keeps the flag sticky. -/
theorem C3_response_contract (en ee : Bool) (resp : Nat) (c : Config)
    (env : BeatEnv) (s : MasterState) :
    checkWriteResponse en ee resp = checkReadResponse en ee resp
    ∧ (checkWriteResponse en ee resp).flagSet = (ee != decide (resp ≠ 0))
    ∧ (checkWriteResponse en ee resp).fatal
        = ((checkWriteResponse en ee resp).flagSet && en)
    ∧ (checkWriteResponse en ee resp).warned
        = ((checkWriteResponse en ee resp).flagSet && !en)
    ∧ (engineStep c env s).exception_occurred
        = (s.exception_occurred || (engineStep c env s).exception_occurred)
    := by
  refine ⟨?_, ?_, ?_, ?_, ?_⟩
  · cases en <;> cases ee <;> by_cases h : resp = 0 <;>
      simp [checkWriteResponse, checkReadResponse, h]
  · cases en <;> cases ee <;> by_cases h : resp = 0 <;>
      simp [checkWriteResponse, h]
  · cases en <;> cases ee <;> by_cases h : resp = 0 <;>
      simp [checkWriteResponse, h]
  · cases en <;> cases ee <;> by_cases h : resp = 0 <;>
      simp [checkWriteResponse, h]
  · by_cases hd : s.engineDead
    · simp [engineStep, hd]
    · rcases hq : s.queue_tx with _ | ⟨b, rest⟩
      · simp [engineStep, hd, hq]
      · rcases he : (processBeat c env s.sig b).err with _ | e <;>
          cases hx : s.exception_occurred <;>
          simp [engineStep, hd, hq, he, hx]

theorem waitLoopAux_of_neg (t : Int) (ht : t < 0) :
    ∀ (r count : Nat), waitLoopAux t r count = .ok (count + r) := by
  intro r
  induction r with
  | zero => intro count; rfl
  | succ r ih =>
      intro count
      rw [waitLoopAux, if_neg (by omega)]
      rw [ih (count + 1)]
      congr 1
      omega

theorem waitLoopAux_of_lt (t : Int) (ht : 0 ≤ t) :
    ∀ (r count : Nat), Int.ofNat (count + r) < t →
      waitLoopAux t r count = .ok (count + r) := by
  intro r
  induction r with
  | zero => intro count _; rfl
  | succ r ih =>
      intro count hlt
      simp only [Int.ofNat_eq_coe] at hlt
      have h1 : ¬(0 ≤ t ∧ t ≤ Int.ofNat (count + 1)) := by
        simp only [Int.ofNat_eq_coe]
        push_cast at hlt ⊢
        omega
      rw [waitLoopAux, if_neg h1]
      have h2 : Int.ofNat (count + 1 + r) < t := by
        simp only [Int.ofNat_eq_coe]
        push_cast at hlt ⊢
        omega
      rw [ih (count + 1) h2]
      congr 1
      omega

theorem waitLoopAux_fires (t : Int) (ht : 0 ≤ t) :
    ∀ (r count : Nat), 1 ≤ r → t ≤ Int.ofNat (count + r) →
      waitLoopAux t r count = .error (max t.toNat (count + 1)) := by
  intro r
  induction r with
  | zero => intro count h; omega
  | succ r ih =>
      intro count _ hle
      simp only [Int.ofNat_eq_coe] at hle
      push_cast at hle
      by_cases hfire : t ≤ Int.ofNat (count + 1)
      · rw [waitLoopAux, if_pos ⟨ht, hfire⟩]
        simp only [Int.ofNat_eq_coe] at hfire
        have hmax : max t.toNat (count + 1) = count + 1 := by omega
        rw [hmax]
      · simp only [Int.ofNat_eq_coe] at hfire
        have hneg : ¬(0 ≤ t ∧ t ≤ Int.ofNat (count + 1)) := by
          simp only [Int.ofNat_eq_coe]
          omega
        rw [waitLoopAux, if_neg hneg]
        have hr : 1 ≤ r := by omega
        have h2 : t ≤ Int.ofNat (count + 1 + r) := by
          simp only [Int.ofNat_eq_coe]
          push_cast
          omega
        rw [ih (count + 1) hr h2]
        have hmax : max t.toNat (count + 1 + 1) = max t.toNat (count + 1) := by
          omega
        rw [hmax]

theorem waitLoop_of_neg (t : Int) (ht : t < 0) (a : Nat) :
    waitLoop t a = .ok a := by
  rw [waitLoop, waitLoopAux_of_neg t ht a 0]
  congr 1
  omega

theorem waitLoop_of_lt (t : Int) (ht : 0 ≤ t) (a : Nat)
    (h : Int.ofNat a < t) : waitLoop t a = .ok a := by
  rw [waitLoop, waitLoopAux_of_lt t ht a 0 (by simpa using h)]
  congr 1
  omega

theorem waitLoop_fires (t : Int) (ht : 0 ≤ t) (a : Nat) (ha : 1 ≤ a)
    (h : t ≤ Int.ofNat a) :
    waitLoop t a = .error (max t.toNat 1) := by
  rw [waitLoop, waitLoopAux_fires t ht a 0 ha (by simpa using h)]

/-- Claim C4: for every beat, in each of the two wait phases (acceptance
and response), a non-negative timeout budget makes the engine fail fatally
with a timeout error carrying the beat's byte address and the elapsed cycle
count once the waited cycles reach the budget before the awaited condition,
while a negative budget lets every finite wait end normally and never
produces a timeout error. -/
theorem C4_timeout_policy (c : Config) (env : BeatEnv) (sig0 : Signals)
    (b : Beat) (a : Nat)
    (hrange : ¬(Int.fdiv b.addr (Int.ofNat c.wbytes) < 0
        ∨ (2 : Int) ^ c.address_width
            ≤ Int.fdiv b.addr (Int.ofNat c.wbytes))) :
    (c.timeout_cycles < 0 → waitLoop c.timeout_cycles a = .ok a)
    ∧ (0 ≤ c.timeout_cycles → Int.ofNat a < c.timeout_cycles →
        waitLoop c.timeout_cycles a = .ok a)
    ∧ (0 ≤ c.timeout_cycles → 1 ≤ a →
        c.timeout_cycles ≤ Int.ofNat a →
        waitLoop c.timeout_cycles a
          = .error (max c.timeout_cycles.toNat 1))
    ∧ (∀ cyc, waitLoop c.timeout_cycles env.waitCycles = .error cyc →
        (processBeat c env sig0 b).err
          = some (.acceptTimeout b.write b.addr cyc))
    ∧ (∀ cyc k, waitLoop c.timeout_cycles env.waitCycles = .ok k →
        waitLoop c.timeout_cycles env.respCycles = .error cyc →
        (processBeat c env sig0 b).err
          = some (.responseTimeout b.write b.addr cyc))
    ∧ (c.timeout_cycles < 0 → ∀ w adr cyc,
        (processBeat c env sig0 b).err ≠ some (.acceptTimeout w adr cyc)
        ∧ (processBeat c env sig0 b).err
            ≠ some (.responseTimeout w adr cyc)) := by
  have hrange2 : ¬(b.addr.fdiv ((c.wbytes : Nat) : Int) < 0
      ∨ (2 : Int) ^ c.address_width ≤ b.addr.fdiv ((c.wbytes : Nat) : Int)) := by
    simpa using hrange
  refine ⟨fun ht => waitLoop_of_neg _ ht a,
    fun ht hlt => waitLoop_of_lt _ ht a hlt,
    fun ht ha hle => waitLoop_fires _ ht a ha hle, ?_, ?_, ?_⟩
  · intro cyc hwc
    cases hb : b.write <;> simp [processBeat, hrange, hrange2, hb, hwc]
  · intro cyc k hok herr
    cases hb : b.write <;> simp [processBeat, hrange, hrange2, hb, hok, herr]
  · intro ht w adr cyc
    have h1 := waitLoop_of_neg c.timeout_cycles ht env.waitCycles
    have h2 := waitLoop_of_neg c.timeout_cycles ht env.respCycles
    cases hb : b.write <;>
      simp only [processBeat, hrange, hb, h1, h2] <;>
      split_ifs <;> simp

/-- A concrete in-range write beat at byte address 16. -/
def beatW0 : Beat :=
  { write := true, addr := 16, data := [239, 190, 173, 222], strb := -1,
    error_expected := false, id := 1 }

/-- An environment in which waitrequest stays asserted for 1000 cycles. -/
def envAT : BeatEnv :=
  { waitCycles := 1000, respCycles := 0, response := 0, readdata := 0 }

theorem C4_timeout_policy_witness :
    waitLoop cfgW.timeout_cycles 999 = .ok 999
    ∧ (processBeat cfgW envAT initState.sig beatW0).err
        = some (.acceptTimeout beatW0.write beatW0.addr 1000) := by
  have h := C4_timeout_policy cfgW envAT initState.sig beatW0 999 (by decide)
  refine ⟨h.2.1 (by decide) (by decide), ?_⟩
  have herr : waitLoop cfgW.timeout_cycles envAT.waitCycles
      = .error (max cfgW.timeout_cycles.toNat 1) :=
    (C4_timeout_policy cfgW envAT initState.sig beatW0 1000
        (by decide)).2.2.1 (by decide) (by decide) (by decide)
  have hres := h.2.2.2.1 (max cfgW.timeout_cycles.toNat 1) herr
  have hmax : max cfgW.timeout_cycles.toNat 1 = 1000 := by decide
  rw [hmax] at hres
  exact hres

/-- Claim C6: a dequeued beat whose word address (byte address
floor-divided by wbytes) is negative or at least 2^address_width makes the
engine fail with an out-of-range error before driving or changing any bus
signal; a beat whose word address is in range never triggers this error. -/
theorem C6_address_range (c : Config) (env : BeatEnv) (sig0 : Signals)
    (b : Beat) :
    ((b.addr.fdiv ((c.wbytes : Nat) : Int) < 0
        ∨ (2 : Int) ^ c.address_width
            ≤ b.addr.fdiv ((c.wbytes : Nat) : Int)) →
      (processBeat c env sig0 b).err
          = some (.addrOutOfRange b.addr (b.addr.fdiv ((c.wbytes : Nat) : Int)))
        ∧ (processBeat c env sig0 b).drove = false
        ∧ (processBeat c env sig0 b).sigFinal = sig0)
    ∧ (¬(b.addr.fdiv ((c.wbytes : Nat) : Int) < 0
        ∨ (2 : Int) ^ c.address_width
            ≤ b.addr.fdiv ((c.wbytes : Nat) : Int)) →
      ∀ ba wa, (processBeat c env sig0 b).err
          ≠ some (.addrOutOfRange ba wa)) := by
  constructor
  · intro h
    have hcond : b.addr.fdiv (Int.ofNat c.wbytes) < 0
        ∨ (2 : Int) ^ c.address_width
            ≤ b.addr.fdiv (Int.ofNat c.wbytes) := by simpa using h
    refine ⟨?_, ?_, ?_⟩ <;>
      · unfold processBeat
        rw [if_pos hcond]
        try rfl
  · intro h ba wa
    rcases hw1 : waitLoop c.timeout_cycles env.waitCycles with cyc1 | k1 <;>
      rcases hw2 : waitLoop c.timeout_cycles env.respCycles with cyc2 | k2 <;>
        cases hb : b.write <;>
          simp [processBeat, h, hb, hw1, hw2] <;>
            split_ifs <;> simp

/-- A concrete out-of-range beat: byte address 262144 gives word address
65536, one past the 16-bit word-address range. -/
def beatOOR : Beat :=
  { write := true, addr := 262144, data := [0, 0, 0, 0], strb := -1,
    error_expected := false, id := 1 }

/-- An environment with immediate acceptance and response. -/
def envOK : BeatEnv :=
  { waitCycles := 0, respCycles := 0, response := 0, readdata := 0 }

theorem C6_address_range_witness :
    (processBeat cfgW envOK initState.sig beatOOR).err
        = some (.addrOutOfRange beatOOR.addr
            (beatOOR.addr.fdiv ((cfgW.wbytes : Nat) : Int)))
    ∧ (processBeat cfgW envOK initState.sig beatOOR).drove = false
    ∧ (processBeat cfgW envOK initState.sig beatW0).err
        ≠ some (.addrOutOfRange beatW0.addr 4) := by
  have h1 := (C6_address_range cfgW envOK initState.sig beatOOR).1 (by decide)
  have h2 := (C6_address_range cfgW envOK initState.sig beatW0).2 (by decide)
    beatW0.addr 4
  exact ⟨h1.1, h1.2.1, h2⟩

/-- Claim C7: a completed read beat carrying a non-empty expected payload
raises a fatal verification exception whenever the captured readdata
differs from the expected value — independently of exception_enabled —
and on agreement completes, delivering the captured value to queue_rx as
rbytes little-endian bytes tagged with the beat id. -/
theorem C7_read_verification (c : Config) (env : BeatEnv) (sig0 : Signals)
    (b : Beat)
    (hb : b.write = false)
    (hrange : ¬(b.addr.fdiv ((c.wbytes : Nat) : Int) < 0
        ∨ (2 : Int) ^ c.address_width
            ≤ b.addr.fdiv ((c.wbytes : Nat) : Int)))
    (k1 k2 : Nat)
    (hw1 : waitLoop c.timeout_cycles env.waitCycles = .ok k1)
    (hw2 : waitLoop c.timeout_cycles env.respCycles = .ok k2)
    (hchk : (checkReadResponse c.exception_enabled b.error_expected
        env.response).fatal = false)
    (hne : b.data ≠ []) :
    (fromLEBytes b.data ≠ env.readdata →
      (processBeat c env sig0 b).err
          = some (.verifyMismatch (fromLEBytes b.data) env.readdata)
        ∧ (processBeat c env sig0 b).rx = [])
    ∧ (fromLEBytes b.data = env.readdata →
      (processBeat c env sig0 b).err = none
        ∧ (processBeat c env sig0 b).rx
            = [(toLEBytes env.readdata c.rbytes, b.id)]) := by
  constructor
  · intro hneq
    constructor <;>
      simp [processBeat, hrange, hb, hw1, hw2, hchk, hne, hneq]
  · intro heq
    constructor <;>
      simp [processBeat, hrange, hb, hw1, hw2, hchk, hne, heq]

/-- A concrete read beat at byte address 32 expecting 0x12345678. -/
def beatR0 : Beat :=
  { write := false, addr := 32, data := [120, 86, 52, 18], strb := -1,
    error_expected := false, id := 1 }

/-- An environment returning readdata 0x12345678 immediately. -/
def envR : BeatEnv :=
  { waitCycles := 0, respCycles := 0, response := 0, readdata := 305419896 }

theorem C7_read_verification_witness :
    ((processBeat cfgW envR initState.sig beatR0).err = none
      ∧ (processBeat cfgW envR initState.sig beatR0).rx
          = [(toLEBytes envR.readdata cfgW.rbytes, beatR0.id)])
    ∧ (processBeat cfgW envOK initState.sig beatR0).err
        = some (.verifyMismatch (fromLEBytes beatR0.data) envOK.readdata) := by
  refine ⟨(C7_read_verification cfgW envR initState.sig beatR0 rfl (by decide)
      0 0 rfl rfl (by decide) (by decide)).2 (by decide), ?_⟩
  exact ((C7_read_verification cfgW envOK initState.sig beatR0 rfl (by decide)
      0 0 rfl rfl (by decide) (by decide)).1 (by decide)).1

/-- Claim C10: the word address driven on the bus for a read beat is
computed from the WRITE bus width in bytes (wbytes), while the byte
addresses of successive read beats split from an integer expected value
advance in steps of the READ bus width in bytes (rbytes); so with
differing widths, driven read word addresses derive from the write
width. -/
theorem C10_read_word_addr (c : Config) (env : BeatEnv) (sig0 : Signals)
    (b : Beat) (addr : Int) (P : Nat) (ee : Bool) (txid : Nat)
    (hb : b.write = false)
    (hrange : ¬(b.addr.fdiv ((c.wbytes : Nat) : Int) < 0
        ∨ (2 : Int) ^ c.address_width
            ≤ b.addr.fdiv ((c.wbytes : Nat) : Int))) :
    (processBeat c env sig0 b).drivenAddr
        = some (b.addr.fdiv ((c.wbytes : Nat) : Int))
    ∧ (readBeats c addr (.int P) ee txid).map Beat.addr
        = (List.range (numReadBeats c (.int P))).map
            (fun i => addr + Int.ofNat (i * c.rbytes)) := by
  constructor
  · rcases hw1 : waitLoop c.timeout_cycles env.waitCycles with cyc1 | k1 <;>
      rcases hw2 : waitLoop c.timeout_cycles env.respCycles with cyc2 | k2 <;>
        simp [processBeat, hrange, hb, hw1, hw2] <;>
          split_ifs <;> simp
  · simp only [readBeats, List.map_map]
    apply List.map_congr_left
    intro i _
    rfl

/-- A mixed-width configuration: 32-bit write bus, 16-bit read bus. -/
def cfgMix : Config :=
  { address_width := 16, wwidth := 32, rwidth := 16, be_width := 4,
    timeout_cycles := 1000, exception_enabled := true }

/-- A read beat at byte address 18 (the second beat of a 32-bit expected
value split with rbytes = 2 from base address 16). -/
def beatRMix : Beat :=
  { write := false, addr := 18, data := [0, 0], strb := -1,
    error_expected := false, id := 2 }

theorem C10_read_word_addr_witness :
    (processBeat cfgMix envOK initState.sig beatRMix).drivenAddr
        = some (beatRMix.addr.fdiv ((cfgMix.wbytes : Nat) : Int))
    ∧ (readBeats cfgMix 16 (.int 3735928559) false 0).map Beat.addr
        = (List.range (numReadBeats cfgMix (.int 3735928559))).map
            (fun i => 16 + Int.ofNat (i * cfgMix.rbytes)) :=
  C10_read_word_addr cfgMix envOK initState.sig beatRMix 16 3735928559 false 0
    rfl (by decide)

theorem writeBeats_ids (c : Config) (addr : Int) (d : Payload) (strb : Int)
    (ee : Bool) (txid : Nat) :
    (writeBeats c addr d strb ee txid).map Beat.id
      = List.range' (txid + 1) (numWriteBeats c d) := by
  rw [List.range'_eq_map_range]
  simp only [writeBeats, List.map_map]
  apply List.map_congr_left
  intro i _
  simp only [Function.comp]
  omega

theorem readBeats_ids (c : Config) (addr : Int) (d : Payload)
    (ee : Bool) (txid : Nat) :
    (readBeats c addr d ee txid).map Beat.id
      = List.range' (txid + 1) (numReadBeats c d) := by
  rw [List.range'_eq_map_range]
  simp only [readBeats, List.map_map]
  apply List.map_congr_left
  intro i _
  simp only [Function.comp]
  omega

/-- The ids assigned to beats by one system step: each enqueue gives the
next block of ids directly above the current tx_id (exactly the id fields
of the appended beats, see writeBeats_ids and readBeats_ids); clear and
engine steps assign none. -/
def assignedIds (c : Config) (s : MasterState) : SysOp → List Nat
  | .wnw _ d _ _ => List.range' (s.tx_id + 1) (numWriteBeats c d)
  | .rnw _ d _ => List.range' (s.tx_id + 1) (numReadBeats c d)
  | .clr => []
  | .engine _ => []

/-- All ids assigned along a trace, in assignment order. -/
def traceAssignedIds (c : Config) (s : MasterState) : List SysOp → List Nat
  | [] => []
  | op :: ops =>
      assignedIds c s op ++ traceAssignedIds c (sysApply c s op) ops

theorem sysApply_tx_id (c : Config) (s : MasterState) (op : SysOp) :
    (sysApply c s op).tx_id = s.tx_id + (assignedIds c s op).length := by
  cases op with
  | wnw a d st e => simp [sysApply, write_nowait, assignedIds]
  | rnw a d e => simp [sysApply, read_nowait, assignedIds]
  | clr => simp [sysApply, clear, assignedIds]
  | engine env =>
      by_cases hd : s.engineDead
      · simp [sysApply, engineStep, hd, assignedIds]
      · rcases hq : s.queue_tx with _ | ⟨b, rest⟩
        · simp [sysApply, engineStep, hd, hq, assignedIds]
        · rcases he : (processBeat c env s.sig b).err with _ | e <;>
            simp [sysApply, engineStep, hd, hq, he, assignedIds]

theorem mem_assignedIds_bounds (c : Config) (s : MasterState) (op : SysOp)
    (i : Nat) (h : i ∈ assignedIds c s op) :
    s.tx_id < i ∧ i ≤ s.tx_id + (assignedIds c s op).length := by
  cases op with
  | wnw a d st e =>
      simp only [assignedIds, List.mem_range'] at h
      obtain ⟨j, hj, rfl⟩ := h
      simp only [assignedIds, List.length_range']
      omega
  | rnw a d e =>
      simp only [assignedIds, List.mem_range'] at h
      obtain ⟨j, hj, rfl⟩ := h
      simp only [assignedIds, List.length_range']
      omega
  | clr => simp [assignedIds] at h
  | engine env => simp [assignedIds] at h

theorem mem_traceAssignedIds_gt (c : Config) :
    ∀ (ops : List SysOp) (s : MasterState) (i : Nat),
      i ∈ traceAssignedIds c s ops → s.tx_id < i := by
  intro ops
  induction ops with
  | nil => intro s i h; simp [traceAssignedIds] at h
  | cons op rest ih =>
      intro s i h
      rw [traceAssignedIds, List.mem_append] at h
      rcases h with h | h
      · exact (mem_assignedIds_bounds c s op i h).1
      · have h1 := ih (sysApply c s op) i h
        have h2 := sysApply_tx_id c s op
        omega

theorem traceAssignedIds_pairwise (c : Config) :
    ∀ (ops : List SysOp) (s : MasterState),
      (traceAssignedIds c s ops).Pairwise (· < ·) := by
  intro ops
  induction ops with
  | nil => intro s; simp [traceAssignedIds]
  | cons op rest ih =>
      intro s
      rw [traceAssignedIds, List.pairwise_append]
      refine ⟨?_, ih (sysApply c s op), ?_⟩
      · cases op <;>
          simp only [assignedIds, List.Pairwise.nil] <;>
          exact List.pairwise_lt_range' _ _
      · intro a ha b hb
        have h1 := (mem_assignedIds_bounds c s op a ha).2
        have h2 := mem_traceAssignedIds_gt c rest (sysApply c s op) b hb
        have h3 := sysApply_tx_id c s op
        omega

/-- Claim C9: across any sequence of write_nowait and read_nowait calls
within a single engine lifetime, including sequences interleaved with
clear() and engine steps, the ids assigned to enqueued beats (which are
exactly the id fields of the beats each call appends) are strictly
increasing in assignment order, and no id is ever assigned twice. -/
theorem C9_ids_strictly_increasing (c : Config) (s : MasterState)
    (ops : List SysOp) (addr : Int) (d : Payload) (strb : Int) (ee : Bool) :
    (writeBeats c addr d strb ee s.tx_id).map Beat.id
        = assignedIds c s (.wnw addr d strb ee)
    ∧ (readBeats c addr d ee s.tx_id).map Beat.id
        = assignedIds c s (.rnw addr d ee)
    ∧ (traceAssignedIds c s ops).Pairwise (· < ·)
    ∧ (traceAssignedIds c s ops).Nodup := by
  refine ⟨writeBeats_ids c addr d strb ee s.tx_id,
    readBeats_ids c addr d ee s.tx_id,
    traceAssignedIds_pairwise c ops s, ?_⟩
  exact (traceAssignedIds_pairwise c ops s).imp Nat.ne_of_lt

theorem sysApply_preserves_idle_inv (c : Config) (s : MasterState)
    (op : SysOp) (h : s.idleSet = true → s.queue_tx = []) :
    (sysApply c s op).idleSet = true → (sysApply c s op).queue_tx = [] := by
  cases op with
  | wnw a d st e => intro hidle; simp [sysApply, write_nowait] at hidle
  | rnw a d e => intro hidle; simp [sysApply, read_nowait] at hidle
  | clr => intro _; simp [sysApply, clear]
  | engine env =>
      by_cases hd : s.engineDead
      · intro hidle
        simp only [sysApply, engineStep, if_pos hd] at hidle ⊢
        exact h hidle
      · rcases hq : s.queue_tx with _ | ⟨b, rest⟩
        · intro _
          simp [sysApply, engineStep, hd, hq]
        · rcases he : (processBeat c env s.sig b).err with _ | e
          all_goals
            intro hidle
            have hidle2 : s.idleSet = true := by
              simpa [sysApply, engineStep, hd, hq, he] using hidle
            rw [h hidle2] at hq
            exact absurd hq (by simp)

theorem runTrace_idle_inv (c : Config) :
    ∀ (ops : List SysOp) (s : MasterState),
      (s.idleSet = true → s.queue_tx = []) →
      ((runTrace c s ops).idleSet = true →
        (runTrace c s ops).queue_tx = []) := by
  intro ops
  induction ops with
  | nil => intro s h; exact h
  | cons op rest ih =>
      intro s h
      exact ih (sysApply c s op) (sysApply_preserves_idle_inv c s op h)

/-- Claim C2 (amended): the idle event tracks only the transaction queue,
not both queues: in every state reachable from construction it is set only
if queue_tx is empty, every enqueue clears it, and the engine re-sets it
exactly when it finds queue_tx empty — even while queue_rx still holds
unconsumed read results. -/
theorem C2_idle_tracks_tx_queue (c : Config) (ops : List SysOp)
    (s : MasterState) (addr : Int) (d : Payload) (strb : Int) (ee : Bool)
    (env : BeatEnv) :
    ((runTrace c initState ops).idleSet = true →
      (runTrace c initState ops).queue_tx = [])
    ∧ (write_nowait c s addr d strb ee).idleSet = false
    ∧ (read_nowait c s addr d ee).1.idleSet = false
    ∧ (s.engineDead = false → s.queue_tx = [] →
        (engineStep c env s).idleSet = true) := by
  refine ⟨runTrace_idle_inv c ops initState (fun _ => rfl), rfl, rfl, ?_⟩
  intro hd hq
  simp [engineStep, hd, hq]

theorem C2_idle_tracks_tx_queue_witness :
    ((runTrace cfgW initState []).idleSet = true →
      (runTrace cfgW initState []).queue_tx = [])
    ∧ (write_nowait cfgW initState 0 (.int 1) (-1) false).idleSet = false
    ∧ (engineStep cfgW envOK initState).idleSet = true := by
  have h := C2_idle_tracks_tx_queue cfgW [] initState 0 (.int 1) (-1) false
    envOK
  exact ⟨h.1, h.2.1, h.2.2.2 rfl rfl⟩

/-- Claim C2 as stated is false on the code: after a queued read completes
but its response is never consumed, the engine sets the idle event while
the response queue is non-empty, so the idle event is not equivalent to
both queues being empty. -/
theorem C2_counterexample :
    (runTrace cfgW initState
        [.rnw 0 (.bytes []) false, .engine envOK, .engine envOK]).idleSet
        = true
    ∧ (runTrace cfgW initState
        [.rnw 0 (.bytes []) false, .engine envOK, .engine envOK]).queue_rx
        ≠ [] := by
  constructor
  · rfl
  · decide

theorem readFindLoop_skips (rxid : Nat) :
    ∀ (pre : List (List Nat × Nat)) (dm : List Nat)
      (post : List (List Nat × Nat)),
      (∀ p ∈ pre, p.2 ≠ rxid) →
      readFindLoop rxid (pre ++ (dm, rxid) :: post) = (some dm, post) := by
  intro pre
  induction pre with
  | nil =>
      intro dm post _
      simp [readFindLoop]
  | cons p ps ih =>
      intro dm post hne
      obtain ⟨pd, pid⟩ := p
      have hpid : pid ≠ rxid := hne (pd, pid) (by simp)
      rw [List.cons_append]
      show readFindLoop rxid ((pd, pid) :: (ps ++ (dm, rxid) :: post))
          = (some dm, post)
      rw [readFindLoop, if_neg (fun hh => hpid hh.symm)]
      exact ih dm post (fun q hq => hne q (List.mem_cons_of_mem _ hq))

theorem readBeats_last_id (c : Config) (addr : Int) (d : Payload) (ee : Bool)
    (txid : Nat) (hrw : 0 < c.rwidth) :
    ((readBeats c addr d ee txid).map Beat.id).getLast?
      = some (txid + numReadBeats c d) := by
  rw [readBeats_ids]
  have hn : 0 < numReadBeats c d := by
    cases d with
    | int n =>
        by_cases h : 0 < n.size
        · simp only [numReadBeats, if_pos h]
          exact (Nat.one_le_div_iff hrw).mpr (by omega)
        · simp [numReadBeats, h]
    | bytes bs => simp [numReadBeats]
  obtain ⟨m, hm⟩ : ∃ m, numReadBeats c d = m + 1 :=
    ⟨numReadBeats c d - 1, by omega⟩
  rw [hm, List.range'_concat, List.getLast?_concat]
  congr 1
  omega

/-- Claim C5: a blocking read awaits the id returned by read_nowait, which
is the id of the last beat it enqueued; while polling it pops response
entries one at a time and permanently discards every entry whose id does
not match (the remainder after the match is exactly the part behind the
matched entry, the skipped prefix is not requeued); once matched, the call
waits for the idle event and only then returns the matched entry's data. -/
theorem C5_read_correlation (c : Config) (s : MasterState) (addr : Int)
    (d : Payload) (ee : Bool) (rxid : Nat)
    (pre : List (List Nat × Nat)) (dm : List Nat)
    (post : List (List Nat × Nat)) (arr : List (List (List Nat × Nat)))
    (idleLater : List Bool)
    (hrw : 0 < c.rwidth)
    (hpre : ∀ p ∈ pre, p.2 ≠ rxid) :
    ((readBeats c addr d ee s.tx_id).map Beat.id).getLast?
        = some (read_nowait c s addr d ee).2
    ∧ readFindLoop rxid (pre ++ (dm, rxid) :: post) = (some dm, post)
    ∧ readPoll rxid (pre ++ (dm, rxid) :: post) arr = some (dm, post)
    ∧ readCall rxid (pre ++ (dm, rxid) :: post) arr idleLater
        = (if idleLater.any (fun x => x) then some dm else none) := by
  have hfind := readFindLoop_skips rxid pre dm post hpre
  have hpoll : readPoll rxid (pre ++ (dm, rxid) :: post) arr
      = some (dm, post) := by
    cases arr with
    | nil => rw [readPoll, hfind]
    | cons a as => rw [readPoll, hfind]
  refine ⟨readBeats_last_id c addr d ee s.tx_id hrw, hfind, hpoll, ?_⟩
  rw [readCall, hpoll]

theorem C5_read_correlation_witness :
    ((readBeats cfgW 0 (.bytes []) false initState.tx_id).map
        Beat.id).getLast?
        = some (read_nowait cfgW initState 0 (.bytes []) false).2
    ∧ readFindLoop 2 ([([1], 1)] ++ ([9], 2) :: [([3], 3)])
        = (some [9], [([3], 3)])
    ∧ readCall 2 ([([1], 1)] ++ ([9], 2) :: [([3], 3)]) [] [true]
        = (if [true].any (fun x => x) then some [9] else none) := by
  have h := C5_read_correlation cfgW initState 0 (.bytes []) false 2
    [([1], 1)] [9] [([3], 3)] [] [true] (by decide) (by decide)
  exact ⟨h.1, h.2.1, h.2.2.2⟩

theorem processBeat_rx_ids (c : Config) (env : BeatEnv) (sig0 : Signals)
    (b : Beat) : ∀ e ∈ (processBeat c env sig0 b).rx, e.2 = b.id := by
  intro e he
  by_cases hr : b.addr.fdiv ((c.wbytes : Nat) : Int) < 0
      ∨ (2 : Int) ^ c.address_width ≤ b.addr.fdiv ((c.wbytes : Nat) : Int)
  · simp [processBeat, hr] at he
  · rcases hw1 : waitLoop c.timeout_cycles env.waitCycles with cyc1 | k1 <;>
      rcases hw2 : waitLoop c.timeout_cycles env.respCycles with cyc2 | k2 <;>
        cases hb : b.write <;>
          simp [processBeat, hr, hw1, hw2, hb] at he <;>
            split_ifs at he <;> simp_all

/-- The id rid sits in neither queue and is at most the id counter. -/
def idAbsent (rid : Nat) (s : MasterState) : Prop :=
  (∀ b ∈ s.queue_tx, b.id ≠ rid) ∧ (∀ e ∈ s.queue_rx, e.2 ≠ rid)
    ∧ rid ≤ s.tx_id

theorem sysApply_preserves_idAbsent (c : Config) (rid : Nat)
    (s : MasterState) (op : SysOp) (h : idAbsent rid s) :
    idAbsent rid (sysApply c s op) := by
  obtain ⟨htx, hrx, hle⟩ := h
  cases op with
  | wnw a d st e =>
      refine ⟨?_, hrx, ?_⟩
      · intro b2 hb2
        simp only [sysApply, write_nowait, List.mem_append] at hb2
        rcases hb2 with hb2 | hb2
        · exact htx b2 hb2
        · have hm : b2.id ∈ (writeBeats c a d st e s.tx_id).map Beat.id :=
            List.mem_map_of_mem Beat.id hb2
          rw [writeBeats_ids, List.mem_range'] at hm
          obtain ⟨j, hj, hid⟩ := hm
          omega
      · simp only [sysApply, write_nowait]
        omega
  | rnw a d e =>
      refine ⟨?_, hrx, ?_⟩
      · intro b2 hb2
        simp only [sysApply, read_nowait, List.mem_append] at hb2
        rcases hb2 with hb2 | hb2
        · exact htx b2 hb2
        · have hm : b2.id ∈ (readBeats c a d e s.tx_id).map Beat.id :=
            List.mem_map_of_mem Beat.id hb2
          rw [readBeats_ids, List.mem_range'] at hm
          obtain ⟨j, hj, hid⟩ := hm
          omega
      · simp only [sysApply, read_nowait]
        omega
  | clr =>
      refine ⟨?_, ?_, hle⟩
      · intro b2 hb2
        simp [sysApply, clear] at hb2
      · intro e2 he2
        simp [sysApply, clear] at he2
  | engine env =>
      by_cases hd : s.engineDead
      · have hs : sysApply c s (.engine env) = s := by
          simp [sysApply, engineStep, hd]
        rw [hs]
        exact ⟨htx, hrx, hle⟩
      · rcases hq : s.queue_tx with _ | ⟨b, rest⟩
        · have hs : sysApply c s (.engine env)
              = { s with idleSet := true, syncSet := false } := by
            simp [sysApply, engineStep, hd, hq]
          rw [hs]
          exact ⟨htx, hrx, hle⟩
        · rcases he : (processBeat c env s.sig b).err with _ | er
          all_goals
            refine ⟨?_, ?_, ?_⟩
            · intro b2 hb2
              apply htx b2
              have hqtx : (sysApply c s (.engine env)).queue_tx = rest := by
                simp [sysApply, engineStep, hd, hq, he]
              rw [hqtx] at hb2
              rw [hq]
              exact List.mem_cons_of_mem b hb2
            · intro e2 he2
              have hqrx : (sysApply c s (.engine env)).queue_rx
                  = s.queue_rx ++ (processBeat c env s.sig b).rx := by
                simp [sysApply, engineStep, hd, hq, he]
              rw [hqrx, List.mem_append] at he2
              rcases he2 with he2 | he2
              · exact hrx e2 he2
              · have hid := processBeat_rx_ids c env s.sig b e2 he2
                have hbid : b.id ≠ rid :=
                  htx b (by rw [hq]; exact List.mem_cons_self b rest)
                rw [hid]
                exact hbid
            · have htxid : (sysApply c s (.engine env)).tx_id = s.tx_id := by
                simp [sysApply, engineStep, hd, hq, he]
              rw [htxid]
              exact hle

theorem runTrace_idAbsent (c : Config) (rid : Nat) :
    ∀ (ops : List SysOp) (s : MasterState), idAbsent rid s →
      idAbsent rid (runTrace c s ops) := by
  intro ops
  induction ops with
  | nil => intro s h; exact h
  | cons op rest ih =>
      intro s h
      exact ih (sysApply c s op) (sysApply_preserves_idAbsent c rid s op h)

theorem runEngine_empty_tx (c : Config) :
    ∀ (envs : List BeatEnv) (s : MasterState), s.queue_tx = [] →
      (runEngine c s envs).queue_tx = []
      ∧ (runEngine c s envs).queue_rx = s.queue_rx
      ∧ (runEngine c s envs).engineDead = s.engineDead := by
  intro envs
  induction envs with
  | nil => intro s h; exact ⟨h, rfl, rfl⟩
  | cons e es ih =>
      intro s h
      have hstep : engineStep c e s = if s.engineDead then s
          else { s with idleSet := true, syncSet := false } := by
        by_cases hd : s.engineDead <;> simp [engineStep, hd, h]
      rw [runEngine, hstep]
      by_cases hd : s.engineDead
      · rw [if_pos hd]
        exact ih s h
      · rw [if_neg hd]
        exact ih { s with idleSet := true, syncSet := false } h

/-- Claim C8: clear unconditionally empties both queues and changes no bus
signal; read_nowait followed by clear before the engine serviced the beat
results in a state in which no response entry for the returned id ever
appears, under any further system steps, and running the engine from that
state raises no error. -/
theorem C8_clear_drops_all (c : Config) (s : MasterState) (addr : Int)
    (d : Payload) (ee : Bool) (ops : List SysOp) (envs : List BeatEnv) :
    (clear s).queue_tx = [] ∧ (clear s).queue_rx = []
    ∧ (clear s).sig = s.sig
    ∧ ((runTrace c (clear (read_nowait c s addr d ee).1) ops).queue_rx.all
        (fun e => e.2 != (read_nowait c s addr d ee).2)) = true
    ∧ (runEngine c (clear (read_nowait c s addr d ee).1) envs).engineDead
        = s.engineDead
    ∧ (runEngine c (clear (read_nowait c s addr d ee).1) envs).queue_rx
        = [] := by
  refine ⟨rfl, rfl, rfl, ?_, ?_, ?_⟩
  · have habs : idAbsent (read_nowait c s addr d ee).2
        (clear (read_nowait c s addr d ee).1) := by
      refine ⟨?_, ?_, ?_⟩
      · intro b2 hb2
        simp [clear] at hb2
      · intro e2 he2
        simp [clear] at he2
      · simp only [clear, read_nowait]
        omega
    have hinv := (runTrace_idAbsent c _ ops _ habs).2.1
    rw [List.all_eq_true]
    intro e hmem
    simpa using hinv e hmem
  · exact (runEngine_empty_tx c envs _ rfl).2.2
  · exact (runEngine_empty_tx c envs _ rfl).2.1

theorem C8_clear_drops_all_witness :
    (clear initState).queue_rx = []
    ∧ ((runTrace cfgW (clear (read_nowait cfgW initState 0 (.bytes [])
          false).1) [.rnw 4 (.bytes []) false, .engine envOK]).queue_rx.all
        (fun e => e.2 != (read_nowait cfgW initState 0 (.bytes [])
          false).2)) = true
    ∧ (runEngine cfgW (clear (read_nowait cfgW initState 0 (.bytes [])
          false).1) [envOK]).queue_rx = [] := by
  have h := C8_clear_drops_all cfgW initState 0 (.bytes []) false
    [.rnw 4 (.bytes []) false, .engine envOK] [envOK]
  exact ⟨h.2.1, h.2.2.2.1, h.2.2.2.2.2⟩

end AvalonMM
